import Mathlib

/-!
Verification of the YACHT hypothesis-recovery module
(`srcs/hypothesis_recovery_src.py`).

The statistical kernel (`single_hyp_test`, `get_alt_mut_rate`) is embedded
over exact rationals: `scipy.stats.binom.cdf`/`.ppf` are realised by the exact
binomial lower tail and its generalised-inverse scan; `scipy.special.betaincinv`
is an external numerical routine and is abstracted as a function parameter
returning `Option ℝ`, with `none` standing for a NaN result.  The
exclusive-hash extraction is embedded over lists of hash values (one list per
genome sketch, mirroring iteration over the sketch's hash dictionary) with
finite sets for the two occurrence-tracking sets.  The multisearch result
table is embedded as a list of rows, and the coverage sweep as a map over the
coverage list.
-/

namespace YACHT

/-- Binomial probability mass `P(X = j)` for `X ~ Binomial(n, p)`, over exact
rationals; this is the distribution underlying the `scipy.stats.binom` calls
in `single_hyp_test`. -/
def binomPmf (n : ℕ) (p : ℚ) (j : ℕ) : ℚ :=
  (n.choose j : ℚ) * p ^ j * (1 - p) ^ (n - j)

/-- Lower-tail binomial CDF `P(X ≤ m)`: the semantics of
`scipy.stats.binom.cdf(m, n, p)` at a natural-number evaluation point. -/
def binomCdf (n : ℕ) (p : ℚ) (m : ℕ) : ℚ :=
  ∑ j in Finset.range (m + 1), binomPmf n p j

/-- Strict lower tail `P(X < t)` for `X ~ Binomial(n, p)`.  This definition
follows the specification's wording "the probability of observing fewer than
`t`" and is used to compare that wording with the threshold the code
computes. -/
def binomProbFewerThan (n : ℕ) (p : ℚ) (t : ℕ) : ℚ :=
  ∑ j in Finset.range t, binomPmf n p j

/-- Bounded upward scan: starting at `k` with the given fuel, return the first
point where the binomial CDF reaches `q` (or the point after the scanned range
if none does). -/
def leastGe (q : ℚ) (n : ℕ) (p : ℚ) : ℕ → ℕ → ℕ
  | k, 0 => k
  | k, fuel + 1 => if q ≤ binomCdf n p k then k else leastGe q n p (k + 1) fuel

/-- `scipy.stats.binom.ppf(q, n, p)` for `q ∈ (0, 1]`: the least `k` with
`CDF(k) ≥ q`.  The support of `Binomial(n, p)` is `{0, …, n}` and
`CDF(n) = 1`, so for `q ∈ (0, 1]` the scan always terminates inside the
support. -/
def binomPpf (q : ℚ) (n : ℕ) (p : ℚ) : ℕ :=
  leastGe q n p 0 (n + 1)

/-- `get_alt_mut_rate` (lines 137–156): computes
`1 - (1 - betaincinv(nu - thresh, 1 + thresh, significance))^(1/ksize)` and
replaces a NaN result by the sentinel `-1.0`.  `scipy.special.betaincinv` is
abstracted as the parameter `betaincinv`, with `none` modelling NaN; the NaN
propagates through the arithmetic (the `Option.map`), matching the final
`np.isnan(mut)` check in the source. -/
noncomputable def get_alt_mut_rate (betaincinv : ℝ → ℝ → ℝ → Option ℝ)
    (nu : ℕ) (thresh : ℕ) (ksize : ℕ) (significance : ℚ) : ℝ :=
  let mu := (betaincinv ((nu : ℝ) - (thresh : ℝ)) (1 + (thresh : ℝ))
      ((significance : ℝ))).map
    (fun b => 1 - (1 - b) ^ ((1 : ℝ) / (ksize : ℝ)))
  match mu with
  | none => -1
  | some m => m

/-- The tuple returned by `single_hyp_test` (source line 211), as a record. -/
structure HypTestResult where
  in_sample_est : Bool
  p_val : ℚ
  num_exclusive_kmers : ℕ
  num_exclusive_kmers_coverage : ℕ
  num_matches : ℕ
  acceptance_threshold_with_coverage : ℕ
  actual_confidence_with_coverage : ℚ
  alt_confidence_mut_rate_with_coverage : ℝ

/-- `single_hyp_test` (lines 159–212).  `int(num_exclusive_kmers * min_coverage)`
truncates toward zero, which for the nonnegative product equals the floor.
The acceptance threshold is `binom.ppf(1 - significance, n_c, non_mut_p)`,
the p-value is `binom.cdf(num_matches, num_exclusive_kmers, non_mut_p)`
(at the unadjusted count), and the presence decision is the conjunction on
source line 207. -/
noncomputable def single_hyp_test (betaincinv : ℝ → ℝ → ℝ → Option ℝ)
    (exclusive_hashes_info_org : ℕ × ℕ) (ksize : ℕ)
    (significance ani_thresh min_coverage : ℚ) : HypTestResult :=
  let num_exclusive_kmers := exclusive_hashes_info_org.1
  let non_mut_p := ani_thresh ^ ksize
  let num_exclusive_kmers_coverage :=
    Nat.floor ((num_exclusive_kmers : ℚ) * min_coverage)
  let acceptance_threshold_with_coverage :=
    binomPpf (1 - significance) num_exclusive_kmers_coverage non_mut_p
  let actual_confidence_with_coverage :=
    1 - binomCdf num_exclusive_kmers_coverage non_mut_p
      acceptance_threshold_with_coverage
  let alt_confidence_mut_rate_with_coverage :=
    get_alt_mut_rate betaincinv num_exclusive_kmers_coverage
      acceptance_threshold_with_coverage ksize significance
  let num_matches := exclusive_hashes_info_org.2
  let p_val := binomCdf num_exclusive_kmers non_mut_p num_matches
  let in_sample_est :=
    decide (acceptance_threshold_with_coverage ≤ num_matches) &&
      decide (num_matches ≠ 0) &&
      decide (acceptance_threshold_with_coverage ≠ 0)
  { in_sample_est := in_sample_est
    p_val := p_val
    num_exclusive_kmers := num_exclusive_kmers
    num_exclusive_kmers_coverage := num_exclusive_kmers_coverage
    num_matches := num_matches
    acceptance_threshold_with_coverage := acceptance_threshold_with_coverage
    actual_confidence_with_coverage := actual_confidence_with_coverage
    alt_confidence_mut_rate_with_coverage := alt_confidence_mut_rate_with_coverage }

/-- One step of the first pass of `get_exclusive_hashes` (lines 107–114): the
state is the pair `(single_occurrence_hashes, multiple_occurrence_hashes)` and
`h` is the next hash encountered. -/
def update_occurrence (st : Finset ℕ × Finset ℕ) (h : ℕ) : Finset ℕ × Finset ℕ :=
  if h ∈ st.2 then st
  else if h ∈ st.1 then (st.1.erase h, insert h st.2)
  else (insert h st.1, st.2)

/-- The first pass of `get_exclusive_hashes` (lines 103–114): fold the
occurrence-tracking step over every hash of every candidate sketch, starting
from two empty sets.  Each sketch is a list of hash values (the iteration
order of the sketch's hash dictionary). -/
def occurrence_scan (sketches : List (List ℕ)) : Finset ℕ × Finset ℕ :=
  sketches.foldl (fun st sk => sk.foldl update_occurrence st) (∅, ∅)

/-- The `single_occurrence_hashes` set left after the first pass. -/
def single_occurrence_hashes (sketches : List (List ℕ)) : Finset ℕ :=
  (occurrence_scan sketches).1

/-- `__find_exclusive_hashes` (lines 94–97): the hashes of one genome's sketch
that survived in `single_occurrence_hashes`. -/
def find_exclusive_hashes (sk : List ℕ) (so : Finset ℕ) : Finset ℕ :=
  sk.toFinset.filter (fun h => h ∈ so)

/-- The per-genome count pair produced by `get_exclusive_hashes`
(lines 129–132): the number of hashes exclusive to the genome and the number
of those that are also in the sample. -/
def exclusive_pair (sketches : List (List ℕ)) (sample_hashes : Finset ℕ)
    (sk : List ℕ) : ℕ × ℕ :=
  let ex := find_exclusive_hashes sk (single_occurrence_hashes sketches)
  (ex.card, (ex ∩ sample_hashes).card)

/-- `get_exclusive_hashes` (lines 68–134), restricted to its pure core: the
list of per-genome `(num_exclusive, num_exclusive_and_in_sample)` pairs, one
per candidate sketch in candidate order. -/
def get_exclusive_hashes (sketches : List (List ℕ)) (sample_hashes : Finset ℕ) :
    List (ℕ × ℕ) :=
  sketches.map (exclusive_pair sketches sample_hashes)

/-- One row of the parsed multisearch result table (line 63).  The external
tool emits one row per (query signature, matched genome) pair with similarity
metrics; the fields kept here are the ones that distinguish rows for the
deduplication semantics of `drop_duplicates` (whole-row equality). -/
structure MultisearchRow where
  query_name : String
  match_name : String
  containment : ℚ
deriving DecidableEq

/-- Helper for `dropDuplicates`: scan the list keeping the elements not yet
seen, accumulating the seen ones. -/
def dropDuplicatesAux {α : Type} [DecidableEq α] (seen : List α) : List α → List α
  | [] => []
  | a :: rest =>
    if a ∈ seen then dropDuplicatesAux seen rest
    else a :: dropDuplicatesAux (a :: seen) rest

/-- `pandas.DataFrame.drop_duplicates` with default `keep='first'`: keep the
first occurrence of each row value, drop later equal rows, preserving order. -/
def dropDuplicates {α : Type} [DecidableEq α] (l : List α) : List α :=
  dropDuplicatesAux [] l

/-- The pure core of `get_organisms_with_nonzero_overlap` (lines 63–66): parse
the result table, drop duplicate rows, and return the `match_name` column as a
list. -/
def get_organisms_with_nonzero_overlap (table : List MultisearchRow) : List String :=
  (dropDuplicates table).map MultisearchRow.match_name

/-- One per-coverage output table of `hypothesis_recovery` (lines 291–296):
the manifest subset tagged with the iteration's `min_coverage`, concatenated
with the per-genome test results, one row per candidate genome. -/
structure ResultTable where
  min_coverage : ℚ
  rows : List (String × HypTestResult)

/-- The pure core of `hypothesis_recovery` (lines 283–298): for every coverage
value of `min_coverage_list`, in order, run `single_hyp_test` on each
candidate genome's `(num_exclusive, num_matched)` pair (order preserved by
`Pool.starmap`) and tag the resulting table with the coverage value.
`manifest` pairs each genome name with its exclusive-hash count pair. -/
noncomputable def hypothesis_recovery (betaincinv : ℝ → ℝ → ℝ → Option ℝ)
    (manifest : List (String × ℕ × ℕ)) (min_coverage_list : List ℚ)
    (ksize : ℕ) (significance ani_thresh : ℚ) : List ResultTable :=
  min_coverage_list.map (fun min_coverage =>
    { min_coverage := min_coverage
      rows := manifest.map (fun g =>
        (g.1, single_hyp_test betaincinv g.2 ksize significance ani_thresh min_coverage)) })

/-- Concatenating the per-coverage result tables: every row carries its
table's coverage tag (the `min_coverage` column of the output tables). -/
def concatRows (tables : List ResultTable) : List (ℚ × String × HypTestResult) :=
  tables.flatMap (fun t => t.rows.map (fun r => (t.min_coverage, r)))

/-- Grouping a concatenated row list by its coverage tag: one group per
distinct tag, in order of first appearance, each group holding exactly the
rows carrying that tag.  This renders the specification's "grouping by
coverage value" round-trip. -/
def regroup (rows : List (ℚ × String × HypTestResult)) :
    List (ℚ × List (ℚ × String × HypTestResult)) :=
  (dropDuplicates (rows.map Prod.fst)).map
    (fun c => (c, rows.filter (fun r => decide (r.1 = c))))

/-- A concrete degenerate instance of the abstract `betaincinv` interface
(always NaN), used to instantiate theorems at concrete inputs. -/
def betaincinvNone : ℝ → ℝ → ℝ → Option ℝ := fun _ _ _ => none

/-- A concrete instance of the abstract `betaincinv` interface that always
returns the number `0`. -/
def betaincinvZero : ℝ → ℝ → ℝ → Option ℝ := fun _ _ _ => some 0

lemma binomPmf_nonneg {p : ℚ} (hp0 : 0 ≤ p) (hp1 : p ≤ 1) (n j : ℕ) :
    0 ≤ binomPmf n p j := by
  have h1 : (0 : ℚ) ≤ 1 - p := by linarith
  exact mul_nonneg (mul_nonneg (by positivity) (pow_nonneg hp0 _)) (pow_nonneg h1 _)

lemma binomProbFewerThan_le_binomCdf {p : ℚ} (hp0 : 0 ≤ p) (hp1 : p ≤ 1)
    (n k : ℕ) : binomProbFewerThan n p k ≤ binomCdf n p k := by
  unfold binomProbFewerThan binomCdf
  apply Finset.sum_le_sum_of_subset_of_nonneg
  · exact Finset.range_subset.mpr (Nat.le_succ k)
  · intro j _ _
    exact binomPmf_nonneg hp0 hp1 n j

lemma binomCdf_self (n : ℕ) (p : ℚ) : binomCdf n p n = 1 := by
  unfold binomCdf
  have h : ∑ j in Finset.range (n + 1), binomPmf n p j = (p + (1 - p)) ^ n := by
    rw [add_pow]
    refine Finset.sum_congr rfl fun j _ => ?_
    unfold binomPmf
    ring
  rw [h]
  have h2 : p + (1 - p) = 1 := by ring
  rw [h2, one_pow]

lemma binomPmf_succ_succ (n : ℕ) (p : ℚ) (j : ℕ) :
    binomPmf (n + 1) p (j + 1) = (1 - p) * binomPmf n p (j + 1) + p * binomPmf n p j := by
  unfold binomPmf
  rcases lt_or_ge j n with hj | hj
  · have e1 : n + 1 - (j + 1) = n - (j + 1) + 1 := by omega
    have e2 : n - j = n - (j + 1) + 1 := by omega
    rw [Nat.choose_succ_succ, e1, e2, pow_succ, pow_succ]
    push_cast
    ring
  · rcases eq_or_lt_of_le hj with hj1 | hj1
    · have hj2 : j = n := hj1.symm
      subst hj2
      have e0 : j + 1 - (j + 1) = 0 := by omega
      have e1 : j - j = 0 := by omega
      rw [Nat.choose_self, Nat.choose_self, Nat.choose_succ_self, e0, e1, pow_succ]
      push_cast
      ring
    · have z1 : (n + 1).choose (j + 1) = 0 := Nat.choose_eq_zero_of_lt (by omega)
      have z2 : n.choose (j + 1) = 0 := Nat.choose_eq_zero_of_lt (by omega)
      have z3 : n.choose j = 0 := Nat.choose_eq_zero_of_lt (by omega)
      rw [z1, z2, z3]
      push_cast
      ring

lemma binomCdf_succ_left {p : ℚ} (hp0 : 0 ≤ p) (hp1 : p ≤ 1) (n k : ℕ) :
    binomCdf (n + 1) p k ≤ binomCdf n p k := by
  have h0 : binomPmf (n + 1) p 0 = (1 - p) * binomPmf n p 0 := by
    unfold binomPmf
    simp only [Nat.choose_zero_right, Nat.cast_one, pow_zero, Nat.sub_zero]
    rw [pow_succ]
    ring
  have expand : binomCdf (n + 1) p k
      = (1 - p) * binomCdf n p k + p * binomProbFewerThan n p k := by
    unfold binomCdf binomProbFewerThan
    rw [Finset.sum_range_succ' (binomPmf (n + 1) p) k]
    rw [Finset.sum_range_succ' (binomPmf n p) k]
    have hstep : ∑ j in Finset.range k, binomPmf (n + 1) p (j + 1)
        = ∑ j in Finset.range k,
            ((1 - p) * binomPmf n p (j + 1) + p * binomPmf n p j) :=
      Finset.sum_congr rfl fun j _ => binomPmf_succ_succ n p j
    rw [hstep, h0, Finset.sum_add_distrib, ← Finset.mul_sum, ← Finset.mul_sum]
    ring
  have hle : binomProbFewerThan n p k ≤ binomCdf n p k :=
    binomProbFewerThan_le_binomCdf hp0 hp1 n k
  have hmul : p * binomProbFewerThan n p k ≤ p * binomCdf n p k :=
    mul_le_mul_of_nonneg_left hle hp0
  calc binomCdf (n + 1) p k
      = (1 - p) * binomCdf n p k + p * binomProbFewerThan n p k := expand
    _ ≤ (1 - p) * binomCdf n p k + p * binomCdf n p k := by linarith
    _ = binomCdf n p k := by ring

lemma binomCdf_anti {p : ℚ} (hp0 : 0 ≤ p) (hp1 : p ≤ 1) {n m : ℕ}
    (h : n ≤ m) (k : ℕ) : binomCdf m p k ≤ binomCdf n p k := by
  induction m, h using Nat.le_induction with
  | base => exact le_refl _
  | succ m hm ih => exact le_trans (binomCdf_succ_left hp0 hp1 m k) ih

lemma leastGe_spec (q : ℚ) (n : ℕ) (p : ℚ) :
    ∀ fuel k : ℕ,
      k ≤ leastGe q n p k fuel ∧ leastGe q n p k fuel ≤ k + fuel ∧
      (∀ j, k ≤ j → j < leastGe q n p k fuel → ¬ q ≤ binomCdf n p j) ∧
      (q ≤ binomCdf n p (leastGe q n p k fuel) ∨ leastGe q n p k fuel = k + fuel) := by
  intro fuel
  induction fuel with
  | zero =>
    intro k
    refine ⟨le_refl _, by simp [leastGe], ?_, Or.inr (by simp [leastGe])⟩
    intro j hj hj2
    simp only [leastGe] at hj2
    omega
  | succ fuel ih =>
    intro k
    by_cases hq : q ≤ binomCdf n p k
    · simp only [leastGe, if_pos hq]
      exact ⟨le_refl _, by omega, by intro j hj hj2; omega, Or.inl hq⟩
    · simp only [leastGe, if_neg hq]
      obtain ⟨h1, h2, h3, h4⟩ := ih (k + 1)
      refine ⟨by omega, by omega, ?_, ?_⟩
      · intro j hj hjlt
        rcases eq_or_lt_of_le hj with hj1 | hj1
        · subst hj1
          exact hq
        · exact h3 j (by omega) hjlt
      · rcases h4 with h | h
        · exact Or.inl h
        · exact Or.inr (by omega)

lemma binomPpf_le {q : ℚ} {n : ℕ} {p : ℚ} {m : ℕ} (h : q ≤ binomCdf n p m) :
    binomPpf q n p ≤ m := by
  by_contra hc
  push_neg at hc
  obtain ⟨-, -, h3, -⟩ := leastGe_spec q n p (n + 1) 0
  exact h3 m (Nat.zero_le m) hc h

lemma binomPpf_le_self {q : ℚ} {n : ℕ} {p : ℚ} (hq : q ≤ 1) : binomPpf q n p ≤ n :=
  binomPpf_le (by rw [binomCdf_self]; exact hq)

lemma binomPpf_spec {q : ℚ} {n : ℕ} {p : ℚ} (hq : q ≤ 1) :
    q ≤ binomCdf n p (binomPpf q n p) := by
  obtain ⟨-, -, -, h4⟩ := leastGe_spec q n p (n + 1) 0
  rcases h4 with h | h
  · exact h
  · exfalso
    have h2 : binomPpf q n p ≤ n := binomPpf_le_self hq
    unfold binomPpf at h2
    omega

lemma update_occurrence_coherent (st : Finset ℕ × Finset ℕ) (c : ℕ → ℕ) (a : ℕ)
    (h1 : ∀ x, x ∈ st.1 ↔ c x = 1) (h2 : ∀ x, x ∈ st.2 ↔ 2 ≤ c x) :
    (∀ x, x ∈ (update_occurrence st a).1 ↔ (if x = a then c x + 1 else c x) = 1) ∧
    (∀ x, x ∈ (update_occurrence st a).2 ↔ 2 ≤ (if x = a then c x + 1 else c x)) := by
  unfold update_occurrence
  by_cases ha2 : a ∈ st.2
  · have hca : 2 ≤ c a := (h2 a).mp ha2
    simp only [if_pos ha2]
    refine ⟨fun x => ?_, fun x => ?_⟩
    · by_cases hx : x = a
      · subst hx
        rw [if_pos rfl, h1 x]
        omega
      · rw [if_neg hx]
        exact h1 x
    · by_cases hx : x = a
      · subst hx
        rw [if_pos rfl, h2 x]
        omega
      · rw [if_neg hx]
        exact h2 x
  · by_cases ha1 : a ∈ st.1
    · have hca : c a = 1 := (h1 a).mp ha1
      simp only [if_neg ha2, if_pos ha1]
      refine ⟨fun x => ?_, fun x => ?_⟩
      · by_cases hx : x = a
        · subst hx
          simp [Finset.mem_erase, hca]
        · simp only [Finset.mem_erase, if_neg hx, ne_eq, hx, not_false_iff, true_and]
          exact h1 x
      · by_cases hx : x = a
        · subst hx
          simp [Finset.mem_insert, hca]
        · simp only [Finset.mem_insert, hx, false_or, if_neg hx]
          exact h2 x
    · have hca1 : ¬ c a = 1 := fun h => ha1 ((h1 a).mpr h)
      have hca2 : ¬ 2 ≤ c a := fun h => ha2 ((h2 a).mpr h)
      have hca : c a = 0 := by omega
      simp only [if_neg ha2, if_neg ha1]
      refine ⟨fun x => ?_, fun x => ?_⟩
      · by_cases hx : x = a
        · subst hx
          simp [Finset.mem_insert, hca]
        · simp only [Finset.mem_insert, hx, false_or, if_neg hx]
          exact h1 x
      · by_cases hx : x = a
        · subst hx
          rw [if_pos rfl, h2 x]
          omega
        · rw [if_neg hx]
          exact h2 x

lemma foldl_update_occurrence :
    ∀ (l : List ℕ) (st : Finset ℕ × Finset ℕ) (c : ℕ → ℕ),
      (∀ x, x ∈ st.1 ↔ c x = 1) → (∀ x, x ∈ st.2 ↔ 2 ≤ c x) →
      (∀ x, x ∈ (l.foldl update_occurrence st).1 ↔ c x + l.count x = 1) ∧
      (∀ x, x ∈ (l.foldl update_occurrence st).2 ↔ 2 ≤ c x + l.count x)
  | [], st, c, h1, h2 => by
    simp only [List.foldl_nil, List.count_nil, Nat.add_zero]
    exact ⟨h1, h2⟩
  | a :: l, st, c, h1, h2 => by
    simp only [List.foldl_cons]
    obtain ⟨g1, g2⟩ := update_occurrence_coherent st c a h1 h2
    obtain ⟨ih1, ih2⟩ :=
      foldl_update_occurrence l (update_occurrence st a)
        (fun x => if x = a then c x + 1 else c x) g1 g2
    refine ⟨fun x => ?_, fun x => ?_⟩
    · rw [ih1 x, List.count_cons]
      by_cases hx : x = a
      · subst hx
        simp only [if_pos rfl, beq_self_eq_true, if_true]
        omega
      · have hax : ¬ a = x := fun h => hx h.symm
        simp [hx, hax]
    · rw [ih2 x, List.count_cons]
      by_cases hx : x = a
      · subst hx
        simp only [if_pos rfl, beq_self_eq_true, if_true]
        omega
      · have hax : ¬ a = x := fun h => hx h.symm
        simp [hx, hax]

lemma occurrence_scan_eq_foldl_flatten (sketches : List (List ℕ)) :
    occurrence_scan sketches = sketches.flatten.foldl update_occurrence (∅, ∅) := by
  suffices h : ∀ (L : List (List ℕ)) (st : Finset ℕ × Finset ℕ),
      L.foldl (fun st sk => sk.foldl update_occurrence st) st
        = L.flatten.foldl update_occurrence st by
    exact h sketches (∅, ∅)
  intro L
  induction L with
  | nil => intro st; rfl
  | cons sk L ih =>
    intro st
    simp only [List.foldl_cons, List.flatten_cons, List.foldl_append]
    exact ih (sk.foldl update_occurrence st)

/-- Per-hash characterisation of the first pass: a hash ends in
`single_occurrence_hashes` iff it occurs exactly once in the concatenation of
all candidate sketches, and in `multiple_occurrence_hashes` iff it occurs at
least twice. -/
lemma occurrence_scan_count (sketches : List (List ℕ)) (x : ℕ) :
    (x ∈ (occurrence_scan sketches).1 ↔ sketches.flatten.count x = 1) ∧
    (x ∈ (occurrence_scan sketches).2 ↔ 2 ≤ sketches.flatten.count x) := by
  rw [occurrence_scan_eq_foldl_flatten]
  obtain ⟨h1, h2⟩ :=
    foldl_update_occurrence sketches.flatten (∅, ∅) (fun _ => 0)
      (by intro y; simp) (by intro y; simp)
  exact ⟨by rw [h1 x]; omega, by rw [h2 x]; omega⟩

lemma count_flatten_eq_countP (x : ℕ) :
    ∀ L : List (List ℕ), (∀ sk ∈ L, sk.Nodup) →
      L.flatten.count x = L.countP (fun sk => decide (x ∈ sk))
  | [], _ => by simp
  | sk :: L, h => by
    have hsk : sk.Nodup := h sk (by simp)
    have hL : ∀ s ∈ L, s.Nodup := fun s hs => h s (by simp [hs])
    rw [List.flatten_cons, List.count_append,
      count_flatten_eq_countP x L hL, List.countP_cons]
    by_cases hx : x ∈ sk
    · have hle : sk.count x ≤ 1 := List.nodup_iff_count_le_one.mp hsk x
      have hpos : 0 < sk.count x := List.count_pos_iff.mpr hx
      have h1 : sk.count x = 1 := by omega
      simp [hx, h1]
      omega
    · have h0 : sk.count x = 0 := List.count_eq_zero.mpr hx
      simp [hx, h0]

/-- Claim C3: after the first pass, the seen-once set
(`single_occurrence_hashes`) contains exactly the hashes occurring in exactly
one candidate sketch, and every hash occurring in two or more candidate
sketches is excluded from it. -/
theorem C3_single_occurrence_exact (sketches : List (List ℕ))
    (hnd : ∀ sk ∈ sketches, sk.Nodup) (x : ℕ) :
    (x ∈ single_occurrence_hashes sketches ↔
      sketches.countP (fun sk => decide (x ∈ sk)) = 1) ∧
    (2 ≤ sketches.countP (fun sk => decide (x ∈ sk)) →
      x ∉ single_occurrence_hashes sketches) := by
  have hc := (occurrence_scan_count sketches x).1
  have he := count_flatten_eq_countP x sketches hnd
  unfold single_occurrence_hashes
  constructor
  · rw [hc, he]
  · intro h2 hmem
    rw [hc, he] at hmem
    omega

/-- Claim C3 witness instance. -/
theorem C3_single_occurrence_exact_witness :
    (2 ∈ single_occurrence_hashes [[1, 2], [2, 3]] ↔
      [[1, 2], [2, 3]].countP (fun sk => decide ((2 : ℕ) ∈ sk)) = 1) ∧
    (2 ≤ [[1, 2], [2, 3]].countP (fun sk => decide ((2 : ℕ) ∈ sk)) →
      2 ∉ single_occurrence_hashes [[1, 2], [2, 3]]) :=
  C3_single_occurrence_exact [[1, 2], [2, 3]] (by decide) 2

/-- Claim C4: the per-genome count pairs produced by `get_exclusive_hashes`
are invariant under permutation of the candidate list: every sketch is
assigned the same `(num_exclusive, num_exclusive_and_in_sample)` pair, and
the output pair list is permuted exactly as the candidate list is. -/
theorem C4_order_invariance (L1 L2 : List (List ℕ)) (hperm : L1.Perm L2)
    (sample : Finset ℕ) :
    (∀ sk, exclusive_pair L1 sample sk = exclusive_pair L2 sample sk) ∧
    (get_exclusive_hashes L1 sample).Perm (get_exclusive_hashes L2 sample) := by
  have hso : single_occurrence_hashes L1 = single_occurrence_hashes L2 := by
    apply Finset.ext
    intro x
    unfold single_occurrence_hashes
    rw [(occurrence_scan_count L1 x).1, (occurrence_scan_count L2 x).1,
      hperm.flatten.count_eq]
  have hpair : ∀ sk, exclusive_pair L1 sample sk = exclusive_pair L2 sample sk := by
    intro sk
    unfold exclusive_pair
    rw [hso]
  refine ⟨hpair, ?_⟩
  unfold get_exclusive_hashes
  have hfun : exclusive_pair L1 sample = exclusive_pair L2 sample := funext hpair
  rw [hfun]
  exact hperm.map (exclusive_pair L2 sample)

/-- Claim C4 witness instance. -/
theorem C4_order_invariance_witness :
    (∀ sk, exclusive_pair [[1, 2], [2, 3]] {2, 3} sk
      = exclusive_pair [[2, 3], [1, 2]] {2, 3} sk) ∧
    (get_exclusive_hashes [[1, 2], [2, 3]] {2, 3}).Perm
      (get_exclusive_hashes [[2, 3], [1, 2]] {2, 3}) :=
  C4_order_invariance [[1, 2], [2, 3]] [[2, 3], [1, 2]] (by decide) {2, 3}

/-- Claim C1: the presence decision of `single_hyp_test` is true iff
`num_matched ≥ t` and `num_matched ≠ 0` and `t ≠ 0`, where `t` is the
coverage-adjusted acceptance threshold it computes; in particular
`num_matched = 0` always yields a false presence call. -/
theorem C1_presence_decision (betaincinv : ℝ → ℝ → ℝ → Option ℝ)
    (ne nm ksize : ℕ) (s a c : ℚ) (hk : 1 ≤ ksize) (hs0 : 0 < s) (hs1 : s < 1)
    (ha0 : 0 < a) (ha1 : a < 1) (hc0 : 0 < c) (hc1 : c ≤ 1) :
    ((single_hyp_test betaincinv (ne, nm) ksize s a c).in_sample_est = true ↔
      ((single_hyp_test betaincinv (ne, nm) ksize s a c).acceptance_threshold_with_coverage ≤ nm ∧
        nm ≠ 0 ∧
        (single_hyp_test betaincinv (ne, nm) ksize s a c).acceptance_threshold_with_coverage ≠ 0)) ∧
    (nm = 0 → (single_hyp_test betaincinv (ne, nm) ksize s a c).in_sample_est = false) := by
  constructor
  · simp [single_hyp_test, and_assoc]
  · intro h0
    subst h0
    simp [single_hyp_test]

/-- Claim C1 witness instance. -/
theorem C1_presence_decision_witness :
    ((single_hyp_test betaincinvNone (1, 1) 1 (1/2) (1/2) 1).in_sample_est = true ↔
      ((single_hyp_test betaincinvNone (1, 1) 1 (1/2) (1/2) 1).acceptance_threshold_with_coverage ≤ 1 ∧
        (1 : ℕ) ≠ 0 ∧
        (single_hyp_test betaincinvNone (1, 1) 1 (1/2) (1/2) 1).acceptance_threshold_with_coverage ≠ 0)) ∧
    ((1 : ℕ) = 0 →
      (single_hyp_test betaincinvNone (1, 1) 1 (1/2) (1/2) 1).in_sample_est = false) :=
  C1_presence_decision betaincinvNone 1 1 1 (1/2) (1/2) 1 (by norm_num) (by norm_num)
    (by norm_num) (by norm_num) (by norm_num) (by norm_num) (by norm_num)

/-- Claim C5: the p-value returned by `single_hyp_test` is the binomial CDF of
the observed match count at the unadjusted exclusive count `num_exclusive`
(not at the coverage-adjusted trial count). -/
theorem C5_pval_unadjusted (betaincinv : ℝ → ℝ → ℝ → Option ℝ)
    (ne nm ksize : ℕ) (s a c : ℚ) (hk : 1 ≤ ksize) (hs0 : 0 < s) (hs1 : s < 1)
    (ha0 : 0 < a) (ha1 : a < 1) (hc0 : 0 < c) (hc1 : c ≤ 1) :
    (single_hyp_test betaincinv (ne, nm) ksize s a c).p_val
      = binomCdf ne (a ^ ksize) nm := by
  simp [single_hyp_test]

/-- Claim C5 witness instance. -/
theorem C5_pval_unadjusted_witness :
    (single_hyp_test betaincinvNone (2, 1) 1 (1/2) (1/2) (1/2)).p_val
      = binomCdf 2 ((1/2 : ℚ) ^ 1) 1 :=
  C5_pval_unadjusted betaincinvNone 2 1 1 (1/2) (1/2) (1/2) (by norm_num) (by norm_num)
    (by norm_num) (by norm_num) (by norm_num) (by norm_num) (by norm_num)

/-- Claim C7: `single_hyp_test` is total on boundary inputs: when
`num_matched > num_exclusive` it still returns a result whose presence logic
is well defined, and the pair `(0, 0)` produces a result with
`in_sample_est = false`, never a crash (the embedding is a total function). -/
theorem C7_boundary_totality (betaincinv : ℝ → ℝ → ℝ → Option ℝ)
    (ksize : ℕ) (s a c : ℚ) (hk : 1 ≤ ksize) (hs0 : 0 < s) (hs1 : s < 1)
    (ha0 : 0 < a) (ha1 : a < 1) (hc0 : 0 < c) (hc1 : c ≤ 1) :
    (∀ ne nm : ℕ, ne < nm →
      ((single_hyp_test betaincinv (ne, nm) ksize s a c).in_sample_est = true ↔
        ((single_hyp_test betaincinv (ne, nm) ksize s a c).acceptance_threshold_with_coverage ≤ nm ∧
          (single_hyp_test betaincinv (ne, nm) ksize s a c).acceptance_threshold_with_coverage ≠ 0))) ∧
    (single_hyp_test betaincinv (0, 0) ksize s a c).in_sample_est = false := by
  constructor
  · intro ne nm hlt
    have hnm : nm ≠ 0 := by omega
    simp [single_hyp_test, hnm]
  · simp [single_hyp_test]

/-- Claim C7 witness instance. -/
theorem C7_boundary_totality_witness :
    (∀ ne nm : ℕ, ne < nm →
      ((single_hyp_test betaincinvNone (ne, nm) 1 (1/2) (1/2) 1).in_sample_est = true ↔
        ((single_hyp_test betaincinvNone (ne, nm) 1 (1/2) (1/2) 1).acceptance_threshold_with_coverage ≤ nm ∧
          (single_hyp_test betaincinvNone (ne, nm) 1 (1/2) (1/2) 1).acceptance_threshold_with_coverage ≠ 0))) ∧
    (single_hyp_test betaincinvNone (0, 0) 1 (1/2) (1/2) 1).in_sample_est = false :=
  C7_boundary_totality betaincinvNone 1 (1/2) (1/2) 1 (by norm_num) (by norm_num)
    (by norm_num) (by norm_num) (by norm_num) (by norm_num) (by norm_num)

/-- Claim C8: for every coverage `c ∈ (0, 1]` the coverage-adjusted trial
count computed by `single_hyp_test` never exceeds `num_exclusive`, and the
acceptance threshold computed at coverage `c` never exceeds the acceptance
threshold computed at `c = 1`. -/
theorem C8_coverage_monotonicity (betaincinv : ℝ → ℝ → ℝ → Option ℝ)
    (ne nm ksize : ℕ) (s a c : ℚ) (hk : 1 ≤ ksize) (hs0 : 0 < s) (hs1 : s < 1)
    (ha0 : 0 < a) (ha1 : a < 1) (hc0 : 0 < c) (hc1 : c ≤ 1) :
    (single_hyp_test betaincinv (ne, nm) ksize s a c).num_exclusive_kmers_coverage ≤ ne ∧
    (single_hyp_test betaincinv (ne, nm) ksize s a c).acceptance_threshold_with_coverage ≤
      (single_hyp_test betaincinv (ne, nm) ksize s a 1).acceptance_threshold_with_coverage := by
  have hmul : (ne : ℚ) * c ≤ (ne : ℚ) :=
    mul_le_of_le_one_right (Nat.cast_nonneg ne) hc1
  have hnc : Nat.floor ((ne : ℚ) * c) ≤ ne := by
    calc Nat.floor ((ne : ℚ) * c) ≤ Nat.floor ((ne : ℚ)) := Nat.floor_mono hmul
      _ = ne := Nat.floor_natCast ne
  constructor
  · simpa [single_hyp_test] using hnc
  · have hq1 : (1 - s : ℚ) ≤ 1 := by linarith
    have hp0 : (0 : ℚ) ≤ a ^ ksize := pow_nonneg ha0.le ksize
    have hp1 : a ^ ksize ≤ 1 := pow_le_one₀ ha0.le ha1.le
    have hgoal : binomPpf (1 - s) (Nat.floor ((ne : ℚ) * c)) (a ^ ksize)
        ≤ binomPpf (1 - s) ne (a ^ ksize) := by
      apply binomPpf_le
      calc (1 - s : ℚ)
          ≤ binomCdf ne (a ^ ksize) (binomPpf (1 - s) ne (a ^ ksize)) :=
            binomPpf_spec hq1
        _ ≤ binomCdf (Nat.floor ((ne : ℚ) * c)) (a ^ ksize)
              (binomPpf (1 - s) ne (a ^ ksize)) :=
            binomCdf_anti hp0 hp1 hnc _
    simpa [single_hyp_test] using hgoal

/-- Claim C8 witness instance. -/
theorem C8_coverage_monotonicity_witness :
    (single_hyp_test betaincinvNone (3, 1) 2 (1/2) (1/2) (1/2)).num_exclusive_kmers_coverage ≤ 3 ∧
    (single_hyp_test betaincinvNone (3, 1) 2 (1/2) (1/2) (1/2)).acceptance_threshold_with_coverage ≤
      (single_hyp_test betaincinvNone (3, 1) 2 (1/2) (1/2) 1).acceptance_threshold_with_coverage :=
  C8_coverage_monotonicity betaincinvNone 3 1 2 (1/2) (1/2) (1/2) (by norm_num)
    (by norm_num) (by norm_num) (by norm_num) (by norm_num) (by norm_num) (by norm_num)

/-- Claim C2 (amended): the acceptance threshold computed by
`single_hyp_test` is the smallest count `t` such that, under
`Binomial(n_c, a^ksize)` with `n_c = floor(num_exclusive * c)`, the
probability of observing at most `t` matches is `≥ 1 - s` (the
`(1-s)`-quantile in the `ppf` convention `min k, CDF(k) ≥ 1-s`). -/
theorem C2_acceptance_threshold_quantile (betaincinv : ℝ → ℝ → ℝ → Option ℝ)
    (ne nm ksize : ℕ) (s a c : ℚ) (hk : 1 ≤ ksize) (hs0 : 0 < s) (hs1 : s < 1)
    (ha0 : 0 < a) (ha1 : a < 1) (hc0 : 0 < c) (hc1 : c ≤ 1) :
    (single_hyp_test betaincinv (ne, nm) ksize s a c).num_exclusive_kmers_coverage
      = Nat.floor ((ne : ℚ) * c) ∧
    1 - s ≤ binomCdf (Nat.floor ((ne : ℚ) * c)) (a ^ ksize)
      ((single_hyp_test betaincinv (ne, nm) ksize s a c).acceptance_threshold_with_coverage) ∧
    (∀ k : ℕ, 1 - s ≤ binomCdf (Nat.floor ((ne : ℚ) * c)) (a ^ ksize) k →
      (single_hyp_test betaincinv (ne, nm) ksize s a c).acceptance_threshold_with_coverage ≤ k) := by
  have hq1 : (1 - s : ℚ) ≤ 1 := by linarith
  refine ⟨by simp [single_hyp_test], ?_, ?_⟩
  · have h := binomPpf_spec (q := 1 - s) (n := Nat.floor ((ne : ℚ) * c))
      (p := a ^ ksize) hq1
    simpa [single_hyp_test] using h
  · intro k hks
    have h := binomPpf_le hks
    simpa [single_hyp_test] using h

/-- Claim C2 counterexample: at `num_exclusive = 1`, `num_matched = 0`,
`ksize = 1`, `s = 1/2`, `a = 1/2`, `c = 1` the code's threshold is `0`, but
the probability of observing fewer than `0` matches is `0 < 1 - s`, so the
code's threshold does not satisfy the claim's defining property "smallest `t`
with `P(X < t) ≥ 1 - s`" (which would give `t = 1`). -/
theorem C2_acceptance_threshold_counterexample :
    (single_hyp_test betaincinvNone (1, 0) 1 (1/2) (1/2) 1).acceptance_threshold_with_coverage = 0 ∧
    ¬ (1 - (1/2 : ℚ) ≤ binomProbFewerThan 1 ((1/2 : ℚ) ^ 1)
        ((single_hyp_test betaincinvNone (1, 0) 1 (1/2) (1/2) 1).acceptance_threshold_with_coverage)) := by
  have ht : (single_hyp_test betaincinvNone (1, 0) 1 (1/2) (1/2) 1).acceptance_threshold_with_coverage = 0 := by
    have h0 : (1 - (1/2 : ℚ))
        ≤ binomCdf (Nat.floor (((1 : ℕ) : ℚ) * 1)) ((1/2 : ℚ) ^ 1) 0 := by
      norm_num [binomCdf, binomPmf]
    have hle := binomPpf_le h0
    have h2 : (single_hyp_test betaincinvNone (1, 0) 1 (1/2) (1/2) 1).acceptance_threshold_with_coverage ≤ 0 := by
      simpa [single_hyp_test] using hle
    omega
  refine ⟨ht, ?_⟩
  rw [ht]
  norm_num [binomProbFewerThan]

/-- Claim C2 (amended) witness instance. -/
theorem C2_acceptance_threshold_quantile_witness :
    (single_hyp_test betaincinvNone (1, 0) 1 (1/2) (1/2) 1).num_exclusive_kmers_coverage
      = Nat.floor (((1 : ℕ) : ℚ) * 1) ∧
    1 - (1/2 : ℚ) ≤ binomCdf (Nat.floor (((1 : ℕ) : ℚ) * 1)) ((1/2 : ℚ) ^ 1)
      ((single_hyp_test betaincinvNone (1, 0) 1 (1/2) (1/2) 1).acceptance_threshold_with_coverage) ∧
    (∀ k : ℕ, 1 - (1/2 : ℚ) ≤ binomCdf (Nat.floor (((1 : ℕ) : ℚ) * 1)) ((1/2 : ℚ) ^ 1) k →
      (single_hyp_test betaincinvNone (1, 0) 1 (1/2) (1/2) 1).acceptance_threshold_with_coverage ≤ k) :=
  C2_acceptance_threshold_quantile betaincinvNone 1 0 1 (1/2) (1/2) 1 (by norm_num)
    (by norm_num) (by norm_num) (by norm_num) (by norm_num) (by norm_num) (by norm_num)

/-- Claim C6: `get_alt_mut_rate` returns
`1 - (1 - betaincinv(nu - thresh, 1 + thresh, s))^(1/ksize)` when the inverse
regularized incomplete beta yields a number, and the sentinel `-1.0` whenever
that computation is undefined (NaN, modelled by `none`); the embedding is a
total function, so the degenerate case never escalates to a crash. -/
theorem C6_alt_mut_rate_sentinel (betaincinv : ℝ → ℝ → ℝ → Option ℝ)
    (nu thresh ksize : ℕ) (s : ℚ) (hk : 1 ≤ ksize) (hs0 : 0 < s) (hs1 : s < 1) :
    (betaincinv ((nu : ℝ) - (thresh : ℝ)) (1 + (thresh : ℝ)) ((s : ℝ)) = none →
      get_alt_mut_rate betaincinv nu thresh ksize s = -1) ∧
    (∀ b : ℝ, betaincinv ((nu : ℝ) - (thresh : ℝ)) (1 + (thresh : ℝ)) ((s : ℝ)) = some b →
      get_alt_mut_rate betaincinv nu thresh ksize s
        = 1 - (1 - b) ^ ((1 : ℝ) / (ksize : ℝ))) := by
  constructor
  · intro h
    simp [get_alt_mut_rate, h]
  · intro b h
    simp [get_alt_mut_rate, h]

/-- Claim C6 witness instance: with an always-NaN inverse beta the sentinel is
returned. -/
theorem C6_alt_mut_rate_sentinel_witness :
    get_alt_mut_rate betaincinvNone 0 0 1 (1/2) = -1 :=
  (C6_alt_mut_rate_sentinel betaincinvNone 0 0 1 (1/2) (le_refl 1) (by norm_num)
    (by norm_num)).1 rfl

lemma dropDuplicatesAux_subset {α : Type} [DecidableEq α] :
    ∀ (seen l : List α) (x : α), x ∈ dropDuplicatesAux seen l → x ∈ l := by
  intro seen l
  induction l generalizing seen with
  | nil => intro x h; simp [dropDuplicatesAux] at h
  | cons a rest ih =>
    intro x h
    by_cases ha : a ∈ seen
    · simp only [dropDuplicatesAux, if_pos ha] at h
      exact List.mem_cons_of_mem a (ih seen x h)
    · simp only [dropDuplicatesAux, if_neg ha] at h
      rcases List.mem_cons.mp h with h1 | h1
      · exact h1 ▸ List.mem_cons_self a rest
      · exact List.mem_cons_of_mem a (ih (a :: seen) x h1)

lemma dropDuplicatesAux_not_mem_seen {α : Type} [DecidableEq α] :
    ∀ (seen l : List α) (x : α), x ∈ dropDuplicatesAux seen l → x ∉ seen := by
  intro seen l
  induction l generalizing seen with
  | nil => intro x h; simp [dropDuplicatesAux] at h
  | cons a rest ih =>
    intro x h
    by_cases ha : a ∈ seen
    · simp only [dropDuplicatesAux, if_pos ha] at h
      exact ih seen x h
    · simp only [dropDuplicatesAux, if_neg ha] at h
      rcases List.mem_cons.mp h with h1 | h1
      · exact h1 ▸ ha
      · have h2 := ih (a :: seen) x h1
        exact fun hx => h2 (List.mem_cons_of_mem a hx)

lemma dropDuplicatesAux_nodup {α : Type} [DecidableEq α] :
    ∀ (seen l : List α), (dropDuplicatesAux seen l).Nodup := by
  intro seen l
  induction l generalizing seen with
  | nil => simp [dropDuplicatesAux]
  | cons a rest ih =>
    by_cases ha : a ∈ seen
    · simpa only [dropDuplicatesAux, if_pos ha] using ih seen
    · simp only [dropDuplicatesAux, if_neg ha]
      refine List.nodup_cons.mpr ⟨?_, ih (a :: seen)⟩
      intro hmem
      exact dropDuplicatesAux_not_mem_seen (a :: seen) rest a hmem
        (List.mem_cons_self a seen)

lemma dropDuplicates_subset {α : Type} [DecidableEq α] (l : List α) (x : α)
    (h : x ∈ dropDuplicates l) : x ∈ l :=
  dropDuplicatesAux_subset [] l x h

lemma dropDuplicates_nodup {α : Type} [DecidableEq α] (l : List α) :
    (dropDuplicates l).Nodup :=
  dropDuplicatesAux_nodup [] l

/-- Claim C9 counterexample: a result table with two distinct rows (different
query signatures) matching the same genome makes
`get_organisms_with_nonzero_overlap` return that genome name twice —
row-level deduplication does not deduplicate the `match_name` column. -/
theorem C9_distinct_names_counterexample :
    ¬ (get_organisms_with_nonzero_overlap
        [{ query_name := "q1", match_name := "m", containment := 1 },
         { query_name := "q2", match_name := "m", containment := 1 }]).Nodup := by
  decide

/-- Claim C9 (amended): `get_organisms_with_nonzero_overlap` returns the
`match_name` of each distinct result row; the returned list contains no
genome name more than once provided no two distinct rows of the table share a
`match_name` (e.g. a single query signature per sample). -/
theorem C9_distinct_names_amended (table : List MultisearchRow)
    (hinj : ∀ r1 ∈ table, ∀ r2 ∈ table,
      r1.match_name = r2.match_name → r1 = r2) :
    (get_organisms_with_nonzero_overlap table).Nodup := by
  unfold get_organisms_with_nonzero_overlap
  apply List.Nodup.map_on
  · intro x hx y hy hxy
    exact hinj x (dropDuplicates_subset table x hx) y
      (dropDuplicates_subset table y hy) hxy
  · exact dropDuplicates_nodup table

/-- Claim C9 (amended) witness instance. -/
theorem C9_distinct_names_amended_witness :
    (get_organisms_with_nonzero_overlap
      [{ query_name := "q1", match_name := "m1", containment := 1 },
       { query_name := "q2", match_name := "m2", containment := 1 }]).Nodup :=
  C9_distinct_names_amended
    [{ query_name := "q1", match_name := "m1", containment := 1 },
     { query_name := "q2", match_name := "m2", containment := 1 }]
    (by decide)

lemma dropDuplicatesAux_append_of_mem {α : Type} [DecidableEq α] :
    ∀ (pre : List α) (seen post : List α), (∀ x ∈ pre, x ∈ seen) →
      dropDuplicatesAux seen (pre ++ post) = dropDuplicatesAux seen post := by
  intro pre
  induction pre with
  | nil => intro seen post _; rfl
  | cons a pre ih =>
    intro seen post hmem
    have ha : a ∈ seen := hmem a (List.mem_cons_self a pre)
    simp only [List.cons_append, dropDuplicatesAux, if_pos ha]
    exact ih seen post fun x hx => hmem x (List.mem_cons_of_mem a hx)

lemma dropDuplicatesAux_flatMap_const :
    ∀ (covs : List ℚ) (seen : List ℚ) (f : ℚ → List ℚ), covs.Nodup →
      (∀ c ∈ covs, c ∉ seen) →
      (∀ c ∈ covs, f c ≠ [] ∧ ∀ x ∈ f c, x = c) →
      dropDuplicatesAux seen (covs.flatMap f) = covs := by
  intro covs
  induction covs with
  | nil => intro seen f _ _ _; rfl
  | cons c rest ih =>
    intro seen f hnd hseen hf
    obtain ⟨hne, hall⟩ := hf c (List.mem_cons_self c rest)
    have hcs : c ∉ seen := hseen c (List.mem_cons_self c rest)
    rw [List.flatMap_cons]
    cases hfc : f c with
    | nil => exact absurd hfc hne
    | cons y ys =>
      have hy : y = c := hall y (by rw [hfc]; exact List.mem_cons_self y ys)
      subst hy
      simp only [List.cons_append, dropDuplicatesAux, if_neg hcs, List.append_eq]
      have hys : dropDuplicatesAux (y :: seen) (ys ++ rest.flatMap f)
          = dropDuplicatesAux (y :: seen) (rest.flatMap f) := by
        apply dropDuplicatesAux_append_of_mem
        intro x hx
        have hxc : x = y := hall x (by rw [hfc]; exact List.mem_cons_of_mem y hx)
        rw [hxc]
        exact List.mem_cons_self y seen
      rw [hys]
      have hrest : dropDuplicatesAux (y :: seen) (rest.flatMap f) = rest := by
        apply ih (y :: seen) f (List.Nodup.of_cons hnd)
        · intro c2 hc2
          have hne2 : c2 ≠ y := fun h =>
            (List.nodup_cons.mp hnd).1 (h ▸ hc2)
          have hns : c2 ∉ seen := hseen c2 (List.mem_cons_of_mem y hc2)
          simp [hne2, hns]
        · intro c2 hc2
          exact hf c2 (List.mem_cons_of_mem y hc2)
      rw [hrest]

lemma filter_flatMap_tag {β : Type} :
    ∀ (covs : List ℚ) (g : ℚ → List (ℚ × β)), covs.Nodup →
      (∀ c x, x ∈ g c → x.1 = c) → ∀ c0 ∈ covs,
      (covs.flatMap g).filter (fun r => decide (r.1 = c0)) = g c0 := by
  intro covs
  induction covs with
  | nil => intro g _ _ c0 hc0; exact absurd hc0 (List.not_mem_nil c0)
  | cons c rest ih =>
    intro g hnd hg c0 hc0
    rw [List.flatMap_cons, List.filter_append]
    rcases List.mem_cons.mp hc0 with h | h
    · subst h
      have h1 : (g c0).filter (fun r => decide (r.1 = c0)) = g c0 :=
        List.filter_eq_self.mpr fun x hx => by simp [hg c0 x hx]
      have h2 : (rest.flatMap g).filter (fun r => decide (r.1 = c0)) = [] := by
        apply List.filter_eq_nil_iff.mpr
        intro x hx
        obtain ⟨c2, hc2, hx2⟩ := List.mem_flatMap.mp hx
        have hx1 : x.1 = c2 := hg c2 x hx2
        have hne : c2 ≠ c0 := fun he =>
          (List.nodup_cons.mp hnd).1 (he ▸ hc2)
        simp [hx1, hne]
      rw [h1, h2, List.append_nil]
    · have hne : c ≠ c0 := fun he =>
        (List.nodup_cons.mp hnd).1 (he ▸ h)
      have h1 : (g c).filter (fun r => decide (r.1 = c0)) = [] := by
        apply List.filter_eq_nil_iff.mpr
        intro x hx
        have hx1 : x.1 = c := hg c x hx
        simp [hx1, hne]
      rw [h1, List.nil_append]
      exact ih g (List.Nodup.of_cons hnd) hg c0 h

/-- The tagged per-coverage row list of one coverage value of the sweep. -/
noncomputable def sweepRows (betaincinv : ℝ → ℝ → ℝ → Option ℝ)
    (manifest : List (String × ℕ × ℕ)) (ksize : ℕ) (s a : ℚ) (c : ℚ) :
    List (ℚ × String × HypTestResult) :=
  (manifest.map (fun g =>
    (g.1, single_hyp_test betaincinv g.2 ksize s a c))).map (fun r => (c, r))

lemma concatRows_hypothesis_recovery (betaincinv : ℝ → ℝ → ℝ → Option ℝ)
    (manifest : List (String × ℕ × ℕ)) (covs : List ℚ) (ksize : ℕ) (s a : ℚ) :
    concatRows (hypothesis_recovery betaincinv manifest covs ksize s a)
      = covs.flatMap (sweepRows betaincinv manifest ksize s a) := by
  unfold concatRows hypothesis_recovery sweepRows
  rw [List.flatMap_map]

lemma sweepRows_tag (betaincinv : ℝ → ℝ → ℝ → Option ℝ)
    (manifest : List (String × ℕ × ℕ)) (ksize : ℕ) (s a : ℚ) (c : ℚ)
    (x : ℚ × String × HypTestResult)
    (hx : x ∈ sweepRows betaincinv manifest ksize s a c) : x.1 = c := by
  unfold sweepRows at hx
  obtain ⟨r, -, hr⟩ := List.mem_map.mp hx
  rw [← hr]

/-- Claim C10 (amended): `hypothesis_recovery` returns one table per coverage
value of the input list, in input order, each tagged with its coverage value
and holding one row per candidate genome in manifest order; and, provided the
coverage values are pairwise distinct and the candidate set is nonempty,
concatenating the tables and grouping the rows by coverage value recovers
exactly the input coverage list with each group equal to its table's (tagged)
rows. -/
theorem C10_round_trip (betaincinv : ℝ → ℝ → ℝ → Option ℝ)
    (manifest : List (String × ℕ × ℕ)) (covs : List ℚ) (ksize : ℕ) (s a : ℚ) :
    ((hypothesis_recovery betaincinv manifest covs ksize s a).map
        ResultTable.min_coverage = covs) ∧
    (∀ t ∈ hypothesis_recovery betaincinv manifest covs ksize s a,
      t.rows.map Prod.fst = manifest.map Prod.fst) ∧
    (covs.Nodup → manifest ≠ [] →
      regroup (concatRows (hypothesis_recovery betaincinv manifest covs ksize s a))
        = covs.map (fun c => (c, sweepRows betaincinv manifest ksize s a c))) := by
  refine ⟨?_, ?_, fun hnd hman => ?_⟩
  · unfold hypothesis_recovery
    rw [List.map_map]
    exact List.map_id'' (fun c => rfl) covs
  · intro t ht
    unfold hypothesis_recovery at ht
    obtain ⟨c, -, hc⟩ := List.mem_map.mp ht
    rw [← hc]
    rw [List.map_map]
    rfl
  · rw [concatRows_hypothesis_recovery]
    unfold regroup dropDuplicates
    have hkeys : dropDuplicatesAux []
        ((covs.flatMap (sweepRows betaincinv manifest ksize s a)).map Prod.fst)
        = covs := by
      rw [List.map_flatMap]
      apply dropDuplicatesAux_flatMap_const covs []
        (fun c => (sweepRows betaincinv manifest ksize s a c).map Prod.fst) hnd
      · intro c _
        exact List.not_mem_nil c
      · intro c _
        constructor
        · simp only [ne_eq, List.map_eq_nil_iff]
          unfold sweepRows
          simp [hman]
        · intro x hx
          obtain ⟨r, hr, hrx⟩ := List.mem_map.mp hx
          rw [← hrx]
          exact sweepRows_tag betaincinv manifest ksize s a c r hr
    rw [hkeys]
    apply List.map_congr_left
    intro c hc
    rw [filter_flatMap_tag covs (sweepRows betaincinv manifest ksize s a) hnd
      (fun c2 x hx => sweepRows_tag betaincinv manifest ksize s a c2 x hx) c hc]

/-- Claim C10 counterexample: with the duplicated coverage list `[1, 1]` and a
single candidate genome, concatenating and regrouping by coverage value
yields a single group, so the recovered key list is `[1]`, not the input
list `[1, 1]`. -/
theorem C10_round_trip_counterexample :
    (regroup (concatRows (hypothesis_recovery betaincinvNone
        [("g", (1, 1))] [1, 1] 1 (1/2) (1/2)))).map Prod.fst ≠ ([1, 1] : List ℚ) := by
  decide

/-- Claim C10 (amended) witness instance. -/
theorem C10_round_trip_witness :
    ((hypothesis_recovery betaincinvNone [("g", (1, 1))] [1, (1/2 : ℚ)] 1 (1/2) (1/2)).map
        ResultTable.min_coverage = [1, (1/2 : ℚ)]) ∧
    (∀ t ∈ hypothesis_recovery betaincinvNone [("g", (1, 1))] [1, (1/2 : ℚ)] 1 (1/2) (1/2),
      t.rows.map Prod.fst = [("g", ((1 : ℕ), (1 : ℕ)))].map Prod.fst) ∧
    regroup (concatRows (hypothesis_recovery betaincinvNone
        [("g", (1, 1))] [1, (1/2 : ℚ)] 1 (1/2) (1/2)))
      = [1, (1/2 : ℚ)].map (fun c =>
          (c, sweepRows betaincinvNone [("g", (1, 1))] 1 (1/2) (1/2) c)) :=
  ⟨(C10_round_trip betaincinvNone [("g", (1, 1))] [1, (1/2 : ℚ)] 1 (1/2) (1/2)).1,
   (C10_round_trip betaincinvNone [("g", (1, 1))] [1, (1/2 : ℚ)] 1 (1/2) (1/2)).2.1,
   (C10_round_trip betaincinvNone [("g", (1, 1))] [1, (1/2 : ℚ)] 1 (1/2) (1/2)).2.2
     (by norm_num) (by simp)⟩

end YACHT
